import Mathlib

/-!
Verification of the number-theoretic core of the repository
(`experiment1_factor.py` and `brute_force_dlog` of `experiment2_ec.py`).

The Python code is shallowly embedded as executable Lean functions.
Randomness (`secrets.randbelow`, `secrets.randbits`) is modelled by an
explicit stream of raw draws `str : Nat → Nat` (or a stream of pairs where
an attempt draws twice); a draw below `b` is rendered as `str i % b`, which
is exactly the set of values the Python call can return.  Unbounded
`while` loops are modelled with an explicit fuel parameter: the function
returns `none` when the fuel runs out, so "the loop terminates" becomes
"some fuel returns `some _`", and "the loop never terminates" becomes
"every fuel returns `none`".
-/

/-- The fixed small-prime list of `is_probable_prime`
(`small_primes = [2,3,5,7,11,13,17,19,23,29]`). -/
def smallPrimes : List Nat := [2, 3, 5, 7, 11, 13, 17, 19, 23, 29]

/-- The inner witness loop of `is_probable_prime`:
`for _ in range(s-1): x = (x*x) % n; if x == n-1: composite=False; break`.
Returns `true` exactly when one of the first `m` repeated squarings of `x`
modulo `n` hits `n - 1`. -/
def mrWitnessLoop (n : Nat) : Nat → Nat → Bool
  | 0, _ => false
  | m + 1, x =>
    let x' := x * x % n
    if x' = n - 1 then true else mrWitnessLoop n m x'

/-- One round of the Miller-Rabin loop body for base `a`
(`x = pow(a, d, n); if x == 1 or x == n-1: continue; ...`).
Returns `true` when the round does not declare `n` composite. -/
def mrRound (n d s a : Nat) : Bool :=
  let x := a ^ d % n
  if x = 1 ∨ x = n - 1 then true else mrWitnessLoop n (s - 1) x

/-- The `for _ in range(k)` loop of `is_probable_prime`; round `i` draws
`a = secrets.randbelow(n - 3) + 2` which is modelled as `str 0 % (n-3) + 2`
on the stream shifted `i` times. -/
def mrRounds (n d s : Nat) (str : Nat → Nat) : Nat → Bool
  | 0 => true
  | k + 1 =>
    let a := str 0 % (n - 3) + 2
    if mrRound n d s a then mrRounds n d s (fun i => str (i + 1)) k else false

/-- `s = 0; d = n-1; while d % 2 == 0: d //= 2; s += 1`, with the halving
counter as structural fuel (`d` halvings need at most `d` steps; the
`d ≠ 0` guard is unreachable at the call site, where `d = n - 1 ≥ 1`).
Returns `(d, s)`. -/
def oddPartAux : Nat → Nat → Nat × Nat
  | 0, d => (d, 0)
  | fuel + 1, d =>
    if d % 2 = 0 ∧ d ≠ 0 then
      let r := oddPartAux fuel (d / 2)
      (r.1, r.2 + 1)
    else (d, 0)

/-- Decompose `m = d * 2 ^ s` with `d` odd, as in `is_probable_prime`. -/
def oddPart (m : Nat) : Nat × Nat := oddPartAux m m

/-- `is_probable_prime(n, k)` of `experiment1_factor.py`.  `str` supplies
the raw `secrets.randbelow(n - 3)` draws, one per round. -/
def is_probable_prime (n k : Nat) (str : Nat → Nat) : Bool :=
  if n < 2 then false
  else
    match smallPrimes.find? (fun p => n % p == 0) with
    | some p => n == p
    | none =>
      let r := oddPart (n - 1)
      mrRounds n r.1 r.2 str k

/-- The `while True` loop of `generate_prime`: each iteration draws
`candidate = secrets.randbits(bits) | (1 << (bits - 1)) | 1` (the raw
`randbits` draw is `str 0 % 2 ^ bits`) and then runs `is_probable_prime`
with eight base draws; an iteration consumes a block of 9 stream slots. -/
def generate_primeLoop (bits : Nat) (str : Nat → Nat) : Nat → Option Nat
  | 0 => none
  | fuel + 1 =>
    let candidate := str 0 % 2 ^ bits ||| 1 <<< (bits - 1) ||| 1
    if is_probable_prime candidate 8 (fun i => str (i + 1)) then some candidate
    else generate_primeLoop bits (fun i => str (i + 9)) fuel

/-- `generate_prime(bits)`: raises `ValueError("bits must be >= 2")` when
`bits < 2`, otherwise enters the retry loop.  `Except.error` is the raised
`ValueError`; `Except.ok none` means the fuel ran out with the loop still
running. -/
def generate_prime (bits fuel : Nat) (str : Nat → Nat) :
    Except String (Option Nat) :=
  if bits < 2 then Except.error "bits must be >= 2"
  else Except.ok (generate_primeLoop bits str fuel)

/-- The `q` generation of `generate_semiprime`
(`q = generate_prime(bits - half); while q == p: q = generate_prime(...)`):
keep generating until the result differs from `p`.  Attempt `j` uses its
own stream `strQ j`; `fuel` bounds the number of regeneration attempts. -/
def generate_semiprimeQ (p bitsq fuelP : Nat) (strQ : Nat → Nat → Nat) :
    Nat → Nat → Except String (Option Nat)
  | 0, _ => Except.ok none
  | fuel + 1, j =>
    match generate_prime bitsq fuelP (strQ j) with
    | Except.error e => Except.error e
    | Except.ok none => Except.ok none
    | Except.ok (some q) =>
      if q = p then generate_semiprimeQ p bitsq fuelP strQ fuel (j + 1)
      else Except.ok (some q)

/-- `generate_semiprime(bits)`: `half = bits // 2`, `p` a `half`-bit prime,
`q` a `(bits - half)`-bit prime regenerated while equal to `p`; returns
`(p*q, p, q)`.  A `ValueError` raised by an inner `generate_prime` call
propagates. -/
def generate_semiprime (bits fuelP fuelLoop : Nat) (strP : Nat → Nat)
    (strQ : Nat → Nat → Nat) : Except String (Option (Nat × Nat × Nat)) :=
  let half := bits / 2
  match generate_prime half fuelP strP with
  | Except.error e => Except.error e
  | Except.ok none => Except.ok none
  | Except.ok (some p) =>
    match generate_semiprimeQ p (bits - half) fuelP strQ fuelLoop 0 with
    | Except.error e => Except.error e
    | Except.ok none => Except.ok none
    | Except.ok (some q) => Except.ok (some (p * q, p, q))

/-- The inner `while d == 1 and iters < max_iter` loop of `pollards_rho`:
one slow step `x = (x*x + c) % n`, two fast steps on `y`,
`d = gcd(|x - y|, n)`, breaking out when `d == n`.  Returns the final `d`. -/
def rhoLoop (n c : Nat) : Nat → Nat → Nat → Nat → Nat
  | 0, _, _, d => d
  | fuel + 1, x, y, d =>
    if d = 1 then
      let x' := (x * x + c) % n
      let y1 := (y * y + c) % n
      let y' := (y1 * y1 + c) % n
      let d' := Nat.gcd (Nat.dist x' y') n
      if d' = n then n else rhoLoop n c fuel x' y' d'
    else d

/-- The final `d` of Pollard attempt number `a`: the attempt draws
`x = secrets.randbelow(n-2) + 2` and `c = secrets.randbelow(n-1) + 1` from
the pair stream (`(str a).1 % (n-2) + 2` and `(str a).2 % (n-1) + 1`) and
runs the inner loop from `y = x`, `d = 1`. -/
def rhoAttemptOutcome (n max_iter : Nat) (str : Nat → Nat × Nat) (a : Nat) : Nat :=
  rhoLoop n ((str a).2 % (n - 1) + 1) max_iter
    ((str a).1 % (n - 2) + 2) ((str a).1 % (n - 2) + 2) 1

/-- The `for attempt in range(10)` loop of `pollards_rho`: an attempt
succeeds when its final `d` satisfies `1 < d < n`. -/
def rhoAttempts (n max_iter : Nat) (str : Nat → Nat × Nat) : Nat → Option Nat
  | 0 => none
  | a + 1 =>
    let d := rhoAttemptOutcome n max_iter str a
    if 1 < d ∧ d < n then some d else rhoAttempts n max_iter str a

/-- `pollards_rho(n, max_iter)`: even `n` returns 2 immediately, otherwise
ten randomized attempts. -/
def pollards_rho (n max_iter : Nat) (str : Nat → Nat × Nat) : Option Nat :=
  if n % 2 = 0 then some 2 else rhoAttempts n max_iter str 10

/-- `trial_division_small(n, limit)`: the first `p` in `range(2, limit+1)`
with `n % p == 0` (`List.range' 2 (limit - 1)` is `[2, ..., limit]`). -/
def trial_division_small (n limit : Nat) : Option Nat :=
  (List.range' 2 (limit - 1)).find? (fun p => n % p == 0)

/-- `factor_semiprime(n)`: small trial division first (the Python
`if small:` truthiness test equals `isSome` since a found divisor is ≥ 2),
then Pollard's Rho; both success paths return `(f, n // f)`. -/
def factor_semiprime (n max_iter : Nat) (str : Nat → Nat × Nat) :
    Option Nat × Option Nat :=
  match trial_division_small n 1000 with
  | some small => (some small, some (n / small))
  | none =>
    match pollards_rho n max_iter str with
    | none => (none, none)
    | some f => (some f, some (n / f))

/-- The `while k <= max_k` loop of `brute_force_dlog` of
`experiment2_ec.py`: test `current == Q`, then `current = current + G`,
`k += 1`; the fuel is the number of values of `k` still allowed. -/
def bfLoop {α : Type} [DecidableEq α] [Add α] (G Q : α) :
    Nat → α → Nat → Option Nat
  | 0, _, _ => none
  | fuel + 1, current, k =>
    if current = Q then some k else bfLoop G Q fuel (current + G) (k + 1)

/-- `brute_force_dlog(G, Q, max_k)`: the `Q == G` fast path returns 1,
otherwise the loop starts at `current = G`, `k = 1`. -/
def brute_force_dlog {α : Type} [DecidableEq α] [Add α] (G Q : α)
    (max_k : Nat) : Option Nat :=
  if Q = G then some 1 else bfLoop G Q max_k G 1

/-! ## Helper lemmas: Pollard's Rho and the factorizer -/

/-- The inner rho loop only ever replaces `d` by `n` or by a
`gcd (_ , n)`, so divisibility of the running `d` in `n` is preserved. -/
lemma rhoLoop_dvd (n c : Nat) :
    ∀ fuel x y d, d ∣ n → rhoLoop n c fuel x y d ∣ n := by
  intro fuel
  induction fuel with
  | zero => intro x y d hd; simpa [rhoLoop] using hd
  | succ fuel ih =>
    intro x y d hd
    rw [rhoLoop]
    split
    · dsimp only
      split
      · exact dvd_refl n
      · exact ih _ _ _ (Nat.gcd_dvd_right _ n)
    · exact hd

/-- Any value returned by the attempt loop is a nontrivial divisor. -/
lemma rhoAttempts_sound (n max_iter : Nat) (str : Nat → Nat × Nat) :
    ∀ A d, rhoAttempts n max_iter str A = some d →
      d ∣ n ∧ 1 < d ∧ d < n := by
  intro A
  induction A with
  | zero => intro d h; simp [rhoAttempts] at h
  | succ A ih =>
    intro d h
    rw [rhoAttempts] at h
    split at h
    · rename_i hguard
      cases h
      exact ⟨rhoLoop_dvd n _ max_iter _ _ 1 (one_dvd n), hguard⟩
    · exact ih d h

/-- If every attempt ends with `d = 1` or `d = n`, the loop returns
`none`. -/
lemma rhoAttempts_none (n max_iter : Nat) (str : Nat → Nat × Nat) :
    ∀ A, (∀ a, a < A → rhoAttemptOutcome n max_iter str a = 1 ∨
        rhoAttemptOutcome n max_iter str a = n) →
      rhoAttempts n max_iter str A = none := by
  intro A
  induction A with
  | zero => intro _; rfl
  | succ A ih =>
    intro hall
    rw [rhoAttempts]
    have hA := hall A (Nat.lt_succ_self A)
    have hng : ¬(1 < rhoAttemptOutcome n max_iter str A ∧
        rhoAttemptOutcome n max_iter str A < n) := by
      rcases hA with h1 | h1 <;> rw [h1] <;> omega
    rw [if_neg hng]
    exact ih fun a ha => hall a (Nat.lt_succ_of_lt ha)

/-- C7: Pollard's-Rho soundness.  For odd `n`, any returned `d` is a
nontrivial divisor of `n` (`d ∣ n` and `1 < d < n`); every even `n`
returns 2 immediately; and when each of the 10 attempts ends with
`d = 1` or `d = n`, the result is `none`. -/
theorem claim_C7_pollards_rho_sound (n max_iter : Nat) (str : Nat → Nat × Nat) :
    (n % 2 = 1 → ∀ d, pollards_rho n max_iter str = some d →
      d ∣ n ∧ 1 < d ∧ d < n) ∧
    (n % 2 = 0 → pollards_rho n max_iter str = some 2) ∧
    (n % 2 = 1 →
      (∀ a, a < 10 → rhoAttemptOutcome n max_iter str a = 1 ∨
        rhoAttemptOutcome n max_iter str a = n) →
      pollards_rho n max_iter str = none) := by
  refine ⟨?_, ?_, ?_⟩
  · intro hodd d h
    rw [pollards_rho, if_neg (by omega)] at h
    exact rhoAttempts_sound n max_iter str 10 d h
  · intro heven
    rw [pollards_rho, if_pos heven]
  · intro hodd hall
    rw [pollards_rho, if_neg (by omega)]
    exact rhoAttempts_none n max_iter str 10 hall

/-- Witness for C7: `pollards_rho 15 = some 3` on the all-zero stream
(a nontrivial divisor), `pollards_rho 4 = some 2`, and with
`max_iter = 0` every attempt on 9 ends with `d = 1`, giving `none`. -/
theorem claim_C7_witness :
    (3 ∣ 15 ∧ 1 < 3 ∧ 3 < 15) ∧
    pollards_rho 4 0 (fun _ => (0, 0)) = some 2 ∧
    pollards_rho 9 0 (fun _ => (0, 0)) = none := by
  refine ⟨?_, ?_, ?_⟩
  · exact (claim_C7_pollards_rho_sound 15 1000000 (fun _ => (0, 0))).1
      (by decide) 3 (by decide)
  · exact (claim_C7_pollards_rho_sound 4 0 (fun _ => (0, 0))).2.1 (by decide)
  · exact (claim_C7_pollards_rho_sound 9 0 (fun _ => (0, 0))).2.2 (by decide)
      (by decide)

/-- C1: whenever `factor_semiprime` returns two non-`none` factors, their
product is exactly the input. -/
theorem claim_C1_factor_product (n max_iter : Nat) (str : Nat → Nat × Nat)
    (f1 f2 : Nat) (h : factor_semiprime n max_iter str = (some f1, some f2)) :
    f1 * f2 = n := by
  rw [factor_semiprime] at h
  rcases htr : trial_division_small n 1000 with _ | small
  · rw [htr] at h
    rcases hpr : pollards_rho n max_iter str with _ | f
    · rw [hpr] at h; exact absurd h (by simp)
    · rw [hpr] at h
      simp only [Prod.mk.injEq, Option.some.injEq] at h
      obtain ⟨rfl, rfl⟩ := h
      have hdvd : f ∣ n := by
        rw [pollards_rho] at hpr
        by_cases he : n % 2 = 0
        · rw [if_pos he] at hpr
          have h2 : 2 = f := Option.some.inj hpr
          rw [← h2]
          exact Nat.dvd_of_mod_eq_zero he
        · rw [if_neg he] at hpr
          exact (rhoAttempts_sound n max_iter str 10 f hpr).1
      exact Nat.mul_div_cancel' hdvd
  · rw [htr] at h
    simp only [Prod.mk.injEq, Option.some.injEq] at h
    have hmod : n % small = 0 := by simpa using List.find?_some htr
    obtain ⟨rfl, rfl⟩ := h
    exact Nat.mul_div_cancel' (Nat.dvd_of_mod_eq_zero hmod)

/-- Witness for C1: `factor_semiprime 15` returns `(some 3, some 5)` on the
all-zero stream and indeed `3 * 5 = 15`. -/
theorem claim_C1_witness : 3 * 5 = 15 :=
  claim_C1_factor_product 15 1000000 (fun _ => (0, 0)) 3 5 (by decide)

/-! ## Helper lemmas: brute-force discrete log -/

/-- Loop invariant of `brute_force_dlog`: the running point is always
`k • G`, so a returned index reproduces `Q`. -/
lemma bfLoop_sound {α : Type} [DecidableEq α] [AddMonoid α] (G Q : α) :
    ∀ fuel (k : Nat) (cur : α) j, cur = k • G → 1 ≤ k →
      bfLoop G Q fuel cur k = some j → 1 ≤ j ∧ j • G = Q := by
  intro fuel
  induction fuel with
  | zero => intro k cur j _ _ h; simp [bfLoop] at h
  | succ fuel ih =>
    intro k cur j hcur hk h
    rw [bfLoop] at h
    split at h
    · rename_i hQ
      have h1 : k = j := Option.some.inj h
      rw [← h1]
      exact ⟨hk, by rw [← hcur, hQ]⟩
    · refine ih (k + 1) (cur + G) j ?_ (by omega) h
      rw [hcur, succ_nsmul]

/-- If no index in the scanned window reproduces `Q`, the loop returns
`none`. -/
lemma bfLoop_none {α : Type} [DecidableEq α] [AddMonoid α] (G Q : α) :
    ∀ fuel (k : Nat) (cur : α), cur = k • G →
      (∀ j, k ≤ j → j < k + fuel → j • G ≠ Q) →
      bfLoop G Q fuel cur k = none := by
  intro fuel
  induction fuel with
  | zero => intro k cur _ _; rfl
  | succ fuel ih =>
    intro k cur hcur hall
    rw [bfLoop]
    rw [if_neg (by rw [hcur]; exact hall k le_rfl (by omega))]
    refine ih (k + 1) (cur + G) ?_ fun j h1 h2 => hall j (by omega) (by omega)
    rw [hcur, succ_nsmul]

/-- C2: `brute_force_dlog` never silently returns a wrong answer: a
returned `k` satisfies `1 ≤ k` and `k • G = Q` (scalar multiplication is
repeated addition of `G`); and when `Q ≠ G` and no `k` in `[1, max_k]`
reproduces `Q`, it returns `none`. -/
theorem claim_C2_dlog_sound {α : Type} [DecidableEq α] [AddMonoid α]
    (G Q : α) (max_k : Nat) :
    (∀ k, brute_force_dlog G Q max_k = some k → 1 ≤ k ∧ k • G = Q) ∧
    ((Q ≠ G ∧ ∀ k, k ≤ max_k → 1 ≤ k → k • G ≠ Q) →
      brute_force_dlog G Q max_k = none) := by
  constructor
  · intro k h
    rw [brute_force_dlog] at h
    split at h
    · rename_i hQG
      have h1 : (1 : Nat) = k := Option.some.inj h
      rw [← h1, one_nsmul]
      exact ⟨le_rfl, hQG.symm⟩
    · exact bfLoop_sound G Q max_k 1 G k (one_nsmul G).symm le_rfl h
  · rintro ⟨hQG, hall⟩
    rw [brute_force_dlog, if_neg hQG]
    exact bfLoop_none G Q max_k 1 G (one_nsmul G).symm
      fun j h1 h2 => hall j (by omega) h1

/-- Witness for C2: over the additive monoid `Nat` with `G = 2`,
`brute_force_dlog 2 6 5 = some 3` and `3 • 2 = 6`; and for the
unreachable target 7, all of `k • 2` for `k ∈ [1, 5]` miss, so the
result is `none`. -/
theorem claim_C2_witness :
    (1 ≤ 3 ∧ (3 : Nat) • (2 : Nat) = 6) ∧
    brute_force_dlog (2 : Nat) 7 5 = none := by
  constructor
  · exact (claim_C2_dlog_sound (2 : Nat) 6 5).1 3 (by decide)
  · refine (claim_C2_dlog_sound (2 : Nat) 7 5).2 ⟨by decide, ?_⟩
    intro k hk h1
    have : k • (2 : Nat) = k * 2 := nsmul_eq_mul k 2
    omega

/-- C9: `generate_prime` raises `ValueError("bits must be >= 2")` exactly
when `bits < 2`; for `bits ≥ 2` no error is raised and the retry loop is
entered. -/
theorem claim_C9_generate_prime_error (bits fuel : Nat) (str : Nat → Nat) :
    (generate_prime bits fuel str = Except.error "bits must be >= 2" ↔
      bits < 2) ∧
    (2 ≤ bits →
      generate_prime bits fuel str =
        Except.ok (generate_primeLoop bits str fuel)) := by
  constructor
  · constructor
    · intro h
      by_contra hge
      rw [generate_prime, if_neg hge] at h
      exact Except.noConfusion h
    · intro h
      rw [generate_prime, if_pos h]
  · intro h
    rw [generate_prime, if_neg (by omega)]

/-- Witness for C9: `bits = 1` raises the error, `bits = 2` enters the
loop (which immediately finds the prime 3 on the all-zero stream). -/
theorem claim_C9_witness :
    generate_prime 1 7 (fun _ => 0) = Except.error "bits must be >= 2" ∧
    generate_prime 2 1 (fun _ => 0) =
      Except.ok (generate_primeLoop 2 (fun _ => 0) 1) :=
  ⟨(claim_C9_generate_prime_error 1 7 (fun _ => 0)).1.mpr (by decide),
   (claim_C9_generate_prime_error 2 1 (fun _ => 0)).2 (by decide)⟩

/-- C10: for `2 ≤ bits ≤ 3`, `generate_semiprime` propagates the
`ValueError` of `generate_prime(bits // 2)` (with `bits // 2 = 1 < 2`)
instead of returning a semiprime. -/
theorem claim_C10_semiprime_error (bits fuelP fuelLoop : Nat)
    (strP : Nat → Nat) (strQ : Nat → Nat → Nat)
    (h2 : 2 ≤ bits) (h3 : bits ≤ 3) :
    generate_semiprime bits fuelP fuelLoop strP strQ =
      Except.error "bits must be >= 2" := by
  have hhalf : bits / 2 = 1 := by omega
  rw [generate_semiprime]
  rw [hhalf, generate_prime, if_pos (by omega)]

/-- Witness for C10 at `bits = 2`. -/
theorem claim_C10_witness :
    generate_semiprime 2 5 5 (fun _ => 0) (fun _ _ => 0) =
      Except.error "bits must be >= 2" :=
  claim_C10_semiprime_error 2 5 5 (fun _ => 0) (fun _ _ => 0)
    (by decide) (by decide)

/-! ## Helper lemmas: prime generation -/

/-- A number whose bit `i` is set is at least `2 ^ i`. -/
lemma two_pow_le_of_testBit (x i : Nat) (h : x.testBit i = true) :
    2 ^ i ≤ x := by
  by_contra hlt
  rw [Nat.testBit_lt_two_pow (by omega)] at h
  exact Bool.noConfusion h

/-- The candidate `randbits(bits) | (1 << (bits-1)) | 1` has exactly
`bits` bits (top bit forced) and is odd. -/
lemma candidate_bounds (bits r : Nat) (h : 1 ≤ bits) :
    2 ^ (bits - 1) ≤ (r % 2 ^ bits ||| 1 <<< (bits - 1) ||| 1) ∧
    (r % 2 ^ bits ||| 1 <<< (bits - 1) ||| 1) < 2 ^ bits ∧
    (r % 2 ^ bits ||| 1 <<< (bits - 1) ||| 1) % 2 = 1 := by
  have hshift : 1 <<< (bits - 1) = 2 ^ (bits - 1) := by
    rw [Nat.shiftLeft_eq, one_mul]
  rw [hshift]
  have hpow_pos : 0 < 2 ^ bits := Nat.pos_pow_of_pos bits (by omega)
  have hmodlt : r % 2 ^ bits < 2 ^ bits := Nat.mod_lt r hpow_pos
  have htop : 2 ^ (bits - 1) < 2 ^ bits :=
    Nat.pow_lt_pow_right (by omega) (by omega)
  have hone : 1 < 2 ^ bits := Nat.one_lt_two_pow (by omega)
  refine ⟨?_, ?_, ?_⟩
  · apply two_pow_le_of_testBit
    rw [Nat.testBit_lor, Nat.testBit_lor, Nat.testBit_two_pow_self]
    simp
  · exact Nat.or_lt_two_pow (Nat.or_lt_two_pow hmodlt htop) hone
  · have hbit : (r % 2 ^ bits ||| 2 ^ (bits - 1) ||| 1).testBit 0 = true := by
      rw [Nat.testBit_lor]
      have : (1 : Nat).testBit 0 = true := rfl
      rw [this, Bool.or_true]
    rw [Nat.testBit_zero] at hbit
    exact of_decide_eq_true hbit

/-- Any prime returned by the `generate_prime` retry loop is a candidate
of some iteration: it has exactly `bits` bits, is odd, and passed the
primality test on the bases drawn for it. -/
lemma generate_primeLoop_sound (bits : Nat) (hb : 1 ≤ bits) :
    ∀ fuel (str : Nat → Nat) p, generate_primeLoop bits str fuel = some p →
      2 ^ (bits - 1) ≤ p ∧ p < 2 ^ bits ∧ p % 2 = 1 ∧
      ∃ s, is_probable_prime p 8 s = true := by
  intro fuel
  induction fuel with
  | zero => intro str p h; simp [generate_primeLoop] at h
  | succ fuel ih =>
    intro str p h
    rw [generate_primeLoop] at h
    split at h
    · rename_i htest
      have hp : str 0 % 2 ^ bits ||| 1 <<< (bits - 1) ||| 1 = p :=
        Option.some.inj h
      obtain ⟨h1, h2, h3⟩ := candidate_bounds bits (str 0) hb
      rw [hp] at h1 h2 h3 htest
      exact ⟨h1, h2, h3, fun i => str (i + 1), htest⟩
    · exact ih _ p h

/-- C5: every `p` returned by `generate_prime(bits)` for `bits ≥ 2`
satisfies `2^(bits-1) ≤ p < 2^bits`, is odd, and passes
`is_probable_prime` on the bases that were drawn for it. -/
theorem claim_C5_generate_prime_bounds (bits fuel : Nat) (str : Nat → Nat)
    (p : Nat) (hb : 2 ≤ bits)
    (h : generate_prime bits fuel str = Except.ok (some p)) :
    2 ^ (bits - 1) ≤ p ∧ p < 2 ^ bits ∧ p % 2 = 1 ∧
    ∃ s, is_probable_prime p 8 s = true := by
  rw [generate_prime, if_neg (by omega)] at h
  exact generate_primeLoop_sound bits (by omega) fuel str p
    (Except.ok.inj h)

/-- Witness for C5: `generate_prime 2` on the all-zero stream returns 3,
which is a 2-bit odd probable prime. -/
theorem claim_C5_witness :
    2 ^ 1 ≤ 3 ∧ 3 < 2 ^ 2 ∧ 3 % 2 = 1 ∧
    ∃ s, is_probable_prime 3 8 s = true :=
  claim_C5_generate_prime_bounds 2 1 (fun _ => 0) 3 (by decide) (by rfl)

/-- Any `q` produced by the regeneration loop differs from `p` and comes
from a successful `generate_prime(bitsq)` run (so `bitsq ≥ 2`). -/
lemma generate_semiprimeQ_sound (p bitsq fuelP : Nat)
    (strQ : Nat → Nat → Nat) :
    ∀ fuel j q,
      generate_semiprimeQ p bitsq fuelP strQ fuel j = Except.ok (some q) →
      q ≠ p ∧ 2 ≤ bitsq ∧
      ∃ s, generate_primeLoop bitsq s fuelP = some q := by
  intro fuel
  induction fuel with
  | zero => intro j q h; exact absurd (Except.ok.inj h) (by simp)
  | succ fuel ih =>
    intro j q h
    rw [generate_semiprimeQ] at h
    split at h
    · exact Except.noConfusion h
    · exact absurd (Except.ok.inj h) (by simp)
    · rename_i q0 heq
      split at h
      · exact ih (j + 1) q h
      · rename_i hne
        have hq : q0 = q := Option.some.inj (Except.ok.inj h)
        rw [generate_prime] at heq
        by_cases hlt : bitsq < 2
        · rw [if_pos hlt] at heq; exact Except.noConfusion heq
        · rw [if_neg hlt] at heq
          subst hq
          exact ⟨hne, by omega, strQ j, Except.ok.inj heq⟩

/-- C6: every triple `(N, p, q)` returned by `generate_semiprime(bits)`
satisfies `N = p * q` and `p ≠ q`, both components pass
`is_probable_prime` on their drawn bases, `p` has exactly `bits / 2` bits
and `q` exactly `bits - bits / 2` bits. -/
theorem claim_C6_semiprime_invariants (bits fuelP fuelLoop : Nat)
    (strP : Nat → Nat) (strQ : Nat → Nat → Nat) (N p q : Nat)
    (h : generate_semiprime bits fuelP fuelLoop strP strQ =
      Except.ok (some (N, p, q))) :
    N = p * q ∧ p ≠ q ∧
    2 ^ (bits / 2 - 1) ≤ p ∧ p < 2 ^ (bits / 2) ∧
    2 ^ (bits - bits / 2 - 1) ≤ q ∧ q < 2 ^ (bits - bits / 2) ∧
    (∃ s, is_probable_prime p 8 s = true) ∧
    (∃ s, is_probable_prime q 8 s = true) := by
  rw [generate_semiprime] at h
  split at h
  · exact Except.noConfusion h
  · exact absurd (Except.ok.inj h) (by simp)
  · rename_i p0 hg
    split at h
    · exact Except.noConfusion h
    · exact absurd (Except.ok.inj h) (by simp)
    · rename_i q0 hq
      have htriple : p0 * q0 = N ∧ p0 = p ∧ q0 = q := by
        have hinj := Option.some.inj (Except.ok.inj h)
        exact ⟨congrArg (fun t => t.1) hinj,
          congrArg (fun t => t.2.1) hinj,
          congrArg (fun t => t.2.2) hinj⟩
      obtain ⟨hN, rfl, rfl⟩ := htriple
      obtain ⟨hne, hb2, sq, hsq⟩ :=
        generate_semiprimeQ_sound p0 (bits - bits / 2) fuelP strQ
          fuelLoop 0 q0 hq
      have hbp2 : ¬ bits / 2 < 2 := by
        intro hlt
        rw [generate_prime, if_pos hlt] at hg
        exact Except.noConfusion hg
      rw [generate_prime, if_neg hbp2] at hg
      obtain ⟨hp1, hp2, _, hpprob⟩ :=
        generate_primeLoop_sound (bits / 2) (by omega) fuelP strP p0
          (Except.ok.inj hg)
      obtain ⟨hq1, hq2, _, hqprob⟩ :=
        generate_primeLoop_sound (bits - bits / 2) (by omega) fuelP sq q0
          hsq
      exact ⟨hN.symm, fun hpq => hne hpq.symm, hp1, hp2, hq1, hq2,
        hpprob, hqprob⟩

/-- Witness for C6: `generate_semiprime 5` on all-zero streams returns
`(15, 3, 5)`, and indeed `15 = 3 * 5`, `3 ≠ 5`, with the expected bit
lengths. -/
theorem claim_C6_witness :
    15 = 3 * 5 ∧ (3 : Nat) ≠ 5 ∧
    2 ^ (5 / 2 - 1) ≤ 3 ∧ 3 < 2 ^ (5 / 2) ∧
    2 ^ (5 - 5 / 2 - 1) ≤ 5 ∧ 5 < 2 ^ (5 - 5 / 2) ∧
    (∃ s, is_probable_prime 3 8 s = true) ∧
    (∃ s, is_probable_prime 5 8 s = true) :=
  claim_C6_semiprime_invariants 5 1 1 (fun _ => 0) (fun _ _ => 0)
    15 3 5 (by rfl)

/-! ## Helper lemmas: trial division -/

/-- `find?` over a contiguous integer window starting at `start ≥ 2`
returns the least factor of `n` when the window reaches it: all smaller
entries fail the divisibility test by minimality of `Nat.minFac`. -/
lemma find_divisor_eq_minFac (n : Nat) (_hn : 2 ≤ n) :
    ∀ len start, 2 ≤ start → start ≤ n.minFac → n.minFac < start + len →
      (List.range' start len).find? (fun p => n % p == 0) =
        some n.minFac := by
  intro len
  induction len with
  | zero => intro start _ h1 h2; omega
  | succ len ih =>
    intro start hs2 hsle hslt
    rw [List.range'_succ]
    by_cases hse : start = n.minFac
    · rw [List.find?_cons_of_pos]
      · rw [hse]
      · have : n % start = 0 := by
          rw [hse]
          exact Nat.mod_eq_zero_of_dvd (Nat.minFac_dvd n)
        simpa using this
    · rw [List.find?_cons_of_neg]
      · exact ih (start + 1) (by omega) (by omega) (by omega)
      · simp only [beq_iff_eq, decide_eq_true_eq]
        intro hmod
        have hdvd : start ∣ n := Nat.dvd_of_mod_eq_zero hmod
        have := Nat.minFac_le_of_dvd hs2 hdvd
        omega

/-- Trial division up to 1000 finds exactly the least prime factor,
provided it is at most 1000. -/
lemma trial_division_small_eq_minFac (n : Nat) (hn : 2 ≤ n)
    (h : n.minFac ≤ 1000) :
    trial_division_small n 1000 = some n.minFac := by
  rw [trial_division_small]
  exact find_divisor_eq_minFac n hn 999 2
    (le_refl 2) ((Nat.minFac_prime (by omega : n ≠ 1)).two_le) (by omega)

/-- C8: when the least factor `l ≥ 2` of `n ≥ 2` is at most 1000,
`factor_semiprime n` returns `(l, n / l)` through the trial-division path
(the result does not depend on the Pollard stream or iteration budget);
in particular `factor_semiprime 8051 = (83, 97)`, and a prime `n ≤ 1000`
gives the trivial pair `(n, 1)`. -/
theorem claim_C8_trial_division_path (n max_iter : Nat)
    (str : Nat → Nat × Nat) :
    (2 ≤ n → n.minFac ≤ 1000 →
      factor_semiprime n max_iter str = (some n.minFac, some (n / n.minFac))) ∧
    factor_semiprime 8051 max_iter str = (some 83, some 97) ∧
    (Nat.Prime n → n ≤ 1000 →
      factor_semiprime n max_iter str = (some n, some 1)) := by
  have main : 2 ≤ n → n.minFac ≤ 1000 →
      factor_semiprime n max_iter str =
        (some n.minFac, some (n / n.minFac)) := by
    intro h2 hle
    rw [factor_semiprime, trial_division_small_eq_minFac n h2 hle]
  refine ⟨main, ?_, ?_⟩
  · rw [factor_semiprime]
    have htr : trial_division_small 8051 1000 = some 83 := by decide
    rw [htr]
  · intro hp hle
    have hmf : n.minFac = n := Nat.Prime.minFac_eq hp
    have := main hp.two_le (by omega)
    rw [hmf, Nat.div_self hp.pos] at this
    exact this

/-- Witness for C8: the trial-division path on 15 (least factor 3) and on
the prime 13. -/
theorem claim_C8_witness :
    (factor_semiprime 15 0 (fun _ => (0, 0)) =
      (some (Nat.minFac 15), some (15 / Nat.minFac 15))) ∧
    factor_semiprime 13 0 (fun _ => (0, 0)) = (some 13, some 1) :=
  ⟨(claim_C8_trial_division_path 15 0 (fun _ => (0, 0))).1 (by decide)
      (le_trans (Nat.minFac_le_of_dvd (by norm_num) (by norm_num) :
        Nat.minFac 15 ≤ 3) (by norm_num)),
   (claim_C8_trial_division_path 13 0 (fun _ => (0, 0))).2.2
      (by norm_num) (by decide)⟩

/-! ## The `generate_semiprime(4)` deadlock (C4) -/

/-- For `bits = 2` the candidate is forced: `r % 4 ||| 2 ||| 1 = 3` for
every draw `r`, and 3 passes the small-prime test, so every iteration of
the retry loop returns 3. -/
lemma generate_primeLoop_two (str : Nat → Nat) (fuel : Nat) :
    generate_primeLoop 2 str (fuel + 1) = some 3 := by
  rw [generate_primeLoop]
  have hc : str 0 % 2 ^ 2 ||| 1 <<< (2 - 1) ||| 1 = 3 := by
    have hr : str 0 % 2 ^ 2 < 4 := Nat.mod_lt _ (by norm_num)
    set r := str 0 % 2 ^ 2 with hrdef
    interval_cases r <;> rfl
  rw [hc]
  exact if_pos rfl

/-- The regeneration loop of `generate_semiprime` with `p = 3` and 2-bit
`q` never exits: the freshly generated `q` is always 3 again. -/
lemma generate_semiprimeQ_four (fuelP : Nat) (strQ : Nat → Nat → Nat) :
    ∀ fuelLoop j, generate_semiprimeQ 3 2 fuelP strQ fuelLoop j =
      Except.ok none := by
  intro fuelLoop
  induction fuelLoop with
  | zero => intro j; rfl
  | succ fuel ih =>
    intro j
    rw [generate_semiprimeQ]
    rcases fuelP with _ | f
    · rfl
    · have hgp : generate_prime 2 (f + 1) (strQ j) = Except.ok (some 3) := by
        rw [generate_prime, if_neg (by omega), generate_primeLoop_two]
      rw [hgp]
      show (if (3 : Nat) = 3 then
          generate_semiprimeQ 3 2 (f + 1) strQ fuel (j + 1)
        else Except.ok (some 3)) = Except.ok none
      rw [if_pos rfl]
      exact ih (j + 1)

/-- C4 (failing input `bits = 4`): `generate_semiprime 4` never returns a
triple, for every fuel bound and every possible random stream — the only
2-bit candidate with forced top and low bits is 3, so `p = q = 3` always
and the `while q == p` regeneration loop runs forever.  This contradicts
the claimed termination (with probability 1) for all `bits ≥ 4`. -/
theorem claim_C4_semiprime4_never_returns (fuelP fuelLoop : Nat)
    (strP : Nat → Nat) (strQ : Nat → Nat → Nat) :
    generate_semiprime 4 fuelP fuelLoop strP strQ = Except.ok none := by
  rw [generate_semiprime]
  rcases fuelP with _ | f
  · rfl
  · have hgp : generate_prime (4 / 2) (f + 1) strP = Except.ok (some 3) := by
      rw [generate_prime, if_neg (by omega)]
      exact congrArg Except.ok (generate_primeLoop_two strP f)
    rw [hgp]
    show (match generate_semiprimeQ 3 (4 - 4 / 2) (f + 1) strQ fuelLoop 0 with
      | Except.error e => Except.error e
      | Except.ok none => Except.ok none
      | Except.ok (some q) => Except.ok (some (3 * q, 3, q))) =
        Except.ok none
    rw [show (4 - 4 / 2 : Nat) = 2 from rfl,
      generate_semiprimeQ_four (f + 1) strQ fuelLoop 0]

/-! ## Helper lemmas: Miller-Rabin has no false negatives -/

/-- Correctness of the `while d % 2 == 0` decomposition: the returned pair
`(d', s)` satisfies `d'` odd and `d' * 2 ^ s = d`. -/
lemma oddPartAux_spec : ∀ fuel d, 0 < d → d ≤ fuel →
    (oddPartAux fuel d).1 % 2 = 1 ∧
    (oddPartAux fuel d).1 * 2 ^ (oddPartAux fuel d).2 = d := by
  intro fuel
  induction fuel with
  | zero => intro d h1 h2; omega
  | succ fuel ih =>
    intro d h1 h2
    rw [oddPartAux]
    by_cases hc : d % 2 = 0 ∧ d ≠ 0
    · rw [if_pos hc]
      obtain ⟨ih1, ih2⟩ := ih (d / 2) (by omega) (by omega)
      refine ⟨ih1, ?_⟩
      show (oddPartAux fuel (d / 2)).1 * 2 ^ ((oddPartAux fuel (d / 2)).2 + 1) = d
      rw [pow_succ, ← mul_assoc, ih2]
      exact Nat.div_mul_cancel (Nat.dvd_of_mod_eq_zero hc.1)
    · rw [if_neg hc]
      exact ⟨by omega, by simp⟩

/-- `oddPart` decomposes any positive `m` as odd part times a power of
two. -/
lemma oddPart_spec (m : Nat) (h : 0 < m) :
    (oddPart m).1 % 2 = 1 ∧ (oddPart m).1 * 2 ^ (oddPart m).2 = m :=
  oddPartAux_spec m m h le_rfl

/-- In the field `ZMod p`, an element whose `2 ^ s`-th power is 1 is
either 1 itself or reaches `-1` along the repeated-squaring chain. -/
lemma pow_two_pow_eq_one {p : Nat} [Fact (Nat.Prime p)] :
    ∀ (s : Nat) (z : ZMod p), z ^ 2 ^ s = 1 →
      z = 1 ∨ ∃ j, j < s ∧ z ^ 2 ^ j = -1 := by
  intro s
  induction s with
  | zero => intro z h; left; simpa using h
  | succ s ih =>
    intro z h
    have hsq : (z ^ 2 ^ s) ^ 2 = 1 := by
      rw [← pow_mul, ← pow_succ]
      exact h
    rcases sq_eq_one_iff.mp hsq with h1 | h1
    · rcases ih z h1 with h2 | ⟨j, hj, hj2⟩
      · exact Or.inl h2
      · exact Or.inr ⟨j, Nat.lt_succ_of_lt hj, hj2⟩
    · exact Or.inr ⟨s, Nat.lt_succ_self s, h1⟩

/-- Natural numbers below the modulus inject into `ZMod p`. -/
lemma natCast_inj_of_lt {p a b : Nat} (ha : a < p) (hb : b < p)
    (h : (a : ZMod p) = (b : ZMod p)) : a = b := by
  have h1 : ((a : Nat) : ZMod p).val = a := ZMod.val_cast_of_lt ha
  have h2 : ((b : Nat) : ZMod p).val = b := ZMod.val_cast_of_lt hb
  rw [← h1, ← h2, h]

/-- `p - 1` casts to `-1` in `ZMod p`. -/
lemma cast_pred_eq_neg_one {p : Nat} (hp : 2 ≤ p) :
    ((p - 1 : Nat) : ZMod p) = -1 := by
  rw [Nat.cast_sub (by omega : 1 ≤ p), Nat.cast_one, ZMod.natCast_self,
    zero_sub]

/-- If some `2 ^ j`-th power of `x` (with `1 ≤ j ≤ m`) is `-1 mod p`, the
repeated-squaring witness loop finds `p - 1` and returns `true`. -/
lemma mrWitnessLoop_true {p : Nat} (hp2 : 2 ≤ p) :
    ∀ m x, x < p →
      (∃ j, 1 ≤ j ∧ j ≤ m ∧ ((x : Nat) : ZMod p) ^ 2 ^ j = -1) →
      mrWitnessLoop p m x = true := by
  intro m
  induction m with
  | zero =>
    rintro x _ ⟨j, hj1, hj0, _⟩
    omega
  | succ m ih =>
    rintro x hx ⟨j, hj1, hjm, hjpow⟩
    show (if x * x % p = p - 1 then true
      else mrWitnessLoop p m (x * x % p)) = true
    have hcast : ((x * x % p : Nat) : ZMod p) = ((x : Nat) : ZMod p) ^ 2 := by
      rw [ZMod.natCast_mod, Nat.cast_mul]
      ring
    have hxlt' : x * x % p < p := Nat.mod_lt _ (by omega)
    by_cases hx' : x * x % p = p - 1
    · rw [if_pos hx']
    · rw [if_neg hx']
      rcases Nat.lt_or_ge j 2 with hj2 | hj2
      · exfalso
        have hj : j = 1 := by omega
        subst hj
        have hneg : ((x * x % p : Nat) : ZMod p) = -1 := by
          rw [hcast]
          simpa [pow_one] using hjpow
        have heq : x * x % p = p - 1 := by
          apply natCast_inj_of_lt hxlt' (by omega)
          rw [hneg, cast_pred_eq_neg_one hp2]
        exact hx' heq
      · apply ih (x * x % p) hxlt'
        refine ⟨j - 1, by omega, by omega, ?_⟩
        rw [hcast, ← pow_mul]
        have h2j : 2 * 2 ^ (j - 1) = 2 ^ j := by
          have hj' : j - 1 + 1 = j := by omega
          rw [← hj', pow_succ']
          simp
        rw [h2j]
        exact hjpow

/-- A Miller-Rabin round can never declare a prime composite: for prime
`p` with `p - 1 = d * 2 ^ s` and any base `2 ≤ a ≤ p - 2`, the round
passes. -/
lemma mrRound_prime (p : Nat) (hp : Nat.Prime p) (hp31 : 31 ≤ p)
    (d s : Nat) (hds : d * 2 ^ s = p - 1) (a : Nat)
    (ha2 : 2 ≤ a) (hap : a ≤ p - 2) :
    mrRound p d s a = true := by
  haveI : Fact (Nat.Prime p) := ⟨hp⟩
  have hx0lt : a ^ d % p < p := Nat.mod_lt _ (by omega)
  have hca : ((a : Nat) : ZMod p) ≠ 0 := by
    intro h0
    rw [ZMod.natCast_zmod_eq_zero_iff_dvd] at h0
    have := Nat.le_of_dvd (by omega) h0
    omega
  have hfermat : (((a : Nat) : ZMod p) ^ d) ^ 2 ^ s = 1 := by
    rw [← pow_mul, hds]
    exact ZMod.pow_card_sub_one_eq_one hca
  have hcastx0 : ((a ^ d % p : Nat) : ZMod p) = ((a : Nat) : ZMod p) ^ d := by
    rw [ZMod.natCast_mod, Nat.cast_pow]
  show (if a ^ d % p = 1 ∨ a ^ d % p = p - 1 then true
    else mrWitnessLoop p (s - 1) (a ^ d % p)) = true
  rcases pow_two_pow_eq_one s (((a : Nat) : ZMod p) ^ d) hfermat with
    h1 | ⟨j, hjs, hjpow⟩
  · have hx1 : a ^ d % p = 1 := by
      apply natCast_inj_of_lt hx0lt (by omega)
      rw [hcastx0, h1, Nat.cast_one]
    rw [if_pos (Or.inl hx1)]
  · rcases Nat.eq_zero_or_pos j with hj0 | hjpos
    · subst hj0
      have hxneg : a ^ d % p = p - 1 := by
        apply natCast_inj_of_lt hx0lt (by omega)
        rw [hcastx0, cast_pred_eq_neg_one (by omega)]
        simpa using hjpow
      rw [if_pos (Or.inr hxneg)]
    · by_cases hcond : a ^ d % p = 1 ∨ a ^ d % p = p - 1
      · rw [if_pos hcond]
      · rw [if_neg hcond]
        apply mrWitnessLoop_true (by omega) (s - 1) _ hx0lt
        refine ⟨j, hjpos, by omega, ?_⟩
        rw [hcastx0]
        exact hjpow

/-- No sequence of drawn bases can make the round loop reject a prime. -/
lemma mrRounds_prime (p : Nat) (hp : Nat.Prime p) (hp31 : 31 ≤ p)
    (d s : Nat) (hds : d * 2 ^ s = p - 1) :
    ∀ k str, mrRounds p d s str k = true := by
  intro k
  induction k with
  | zero => intro str; rfl
  | succ k ih =>
    intro str
    show (if mrRound p d s (str 0 % (p - 3) + 2) then
      mrRounds p d s (fun i => str (i + 1)) k else false) = true
    have hap : str 0 % (p - 3) + 2 ≤ p - 2 := by
      have : str 0 % (p - 3) < p - 3 := Nat.mod_lt _ (by omega)
      omega
    rw [if_pos (mrRound_prime p hp hp31 d s hds _ (by omega) hap)]
    exact ih (fun i => str (i + 1))

/-- Every prime below 31 is in the small-prime list. -/
lemma prime_small_mem : ∀ q, q < 31 → Nat.Prime q → q ∈ smallPrimes := by
  decide

/-- A prime that survives the small-prime trial division is at least
31. -/
lemma find_none_prime_ge31 (p : Nat) (hp : Nat.Prime p)
    (hnone : smallPrimes.find? (fun q => p % q == 0) = none) : 31 ≤ p := by
  by_contra h
  have hmem : p ∈ smallPrimes := prime_small_mem p (by omega) hp
  have := List.find?_eq_none.mp hnone p hmem
  simp [Nat.mod_self] at this

/-- C3 (amended): `is_probable_prime` has no false negatives — a prime
`n` passes for every round count and every sequence of drawn bases;
`n < 2` returns false; a member of the small-prime set returns true; and
any other multiple of a small prime returns false.  (Exactness on
composites holds only with high probability over random bases, not for
every base sequence.) -/
theorem claim_C3_probable_prime (n k : Nat) (str : Nat → Nat) :
    (Nat.Prime n → is_probable_prime n k str = true) ∧
    (n < 2 → is_probable_prime n k str = false) ∧
    (n ∈ smallPrimes → is_probable_prime n k str = true) ∧
    (n ∉ smallPrimes → (∃ q ∈ smallPrimes, q ∣ n) →
      is_probable_prime n k str = false) := by
  refine ⟨?_, ?_, ?_, ?_⟩
  · intro hp
    have h2 : ¬ n < 2 := by
      have := hp.two_le
      omega
    rw [is_probable_prime, if_neg h2]
    rcases hfind : smallPrimes.find? (fun q => n % q == 0) with _ | q
    · show mrRounds n (oddPart (n - 1)).1 (oddPart (n - 1)).2 str k = true
      have h31 := find_none_prime_ge31 n hp hfind
      obtain ⟨-, hds⟩ := oddPart_spec (n - 1) (by omega)
      exact mrRounds_prime n hp h31 _ _ hds k str
    · show (n == q) = true
      have hq := List.find?_some hfind
      have hqmem : q ∈ smallPrimes := List.mem_of_find?_eq_some hfind
      have hqdvd : q ∣ n := Nat.dvd_of_mod_eq_zero (by simpa using hq)
      have hq2 : 2 ≤ q := by fin_cases hqmem <;> norm_num
      rcases Nat.Prime.eq_one_or_self_of_dvd hp q hqdvd with h1 | h1
      · omega
      · simp [h1]
  · intro h
    rw [is_probable_prime, if_pos h]
  · intro hmem
    fin_cases hmem <;> rfl
  · rintro hnotmem ⟨q, hqmem, hqdvd⟩
    by_cases h2 : n < 2
    · rw [is_probable_prime, if_pos h2]
    · rw [is_probable_prime, if_neg h2]
      rcases hfind : smallPrimes.find? (fun r => n % r == 0) with _ | r
      · exfalso
        have := List.find?_eq_none.mp hfind q hqmem
        simp [Nat.mod_eq_zero_of_dvd hqdvd] at this
      · show (n == r) = false
        have hrmem : r ∈ smallPrimes := List.mem_of_find?_eq_some hfind
        simp only [beq_eq_false_iff_ne, ne_eq]
        intro heq
        exact hnotmem (heq ▸ hrmem)

/-- Counterexample for C3 as stated: 4033 = 37 · 109 is composite and
below 10^6, yet with every drawn base equal to 2 (the all-zero raw
stream) `is_probable_prime` returns `true` — 4033 is a strong
pseudoprime to base 2, so exactness does not hold for every sequence of
drawn bases. -/
theorem claim_C3_counterexample :
    is_probable_prime 4033 8 (fun _ => 0) = true ∧
    ¬ Nat.Prime 4033 ∧ 4033 < 10 ^ 6 :=
  ⟨by decide, by norm_num, by norm_num⟩

/-- Witness for C3: the amended theorem applied at the prime 31, at 1, at
the small prime 29, and at 35 = 5 · 7. -/
theorem claim_C3_witness :
    is_probable_prime 31 8 (fun _ => 0) = true ∧
    is_probable_prime 1 8 (fun _ => 0) = false ∧
    is_probable_prime 29 8 (fun _ => 0) = true ∧
    is_probable_prime 35 8 (fun _ => 0) = false :=
  ⟨(claim_C3_probable_prime 31 8 (fun _ => 0)).1 (by norm_num),
   (claim_C3_probable_prime 1 8 (fun _ => 0)).2.1 (by norm_num),
   (claim_C3_probable_prime 29 8 (fun _ => 0)).2.2.1 (by decide),
   (claim_C3_probable_prime 35 8 (fun _ => 0)).2.2.2 (by decide)
     ⟨5, by decide, by norm_num⟩⟩
